import Mathlib

/-!
Shallow embedding of the session-rs acoustic fingerprint search engine
(src/fingerprint.rs, src/search.rs, src/config.rs) and proofs about the
spec claims.

Machine integers are modelled as Nat with explicit reduction mod 2^32
exactly where the Rust code performs u32 arithmetic (Fraction scores and
the cross-multiplication comparison).  Fallible slicing in the source is
total here because every call site establishes the bound; where the code
would panic outside its invariant (an out-of-range slice start) the
embedding yields the empty slice, which is never reached from the public
operations.  Floating point enters the source only in the chroma/FFT
numerics; those are abstracted by the ranking permutation they deliver to
the quantizer (see quantizeTopK below), which is the exact interface the
integer quantizer consumes.
-/

namespace SessionRS

/-! ### Fingerprints: src/fingerprint.rs

A Feature is an opaque 64-bit word; distance is popcount of xor
(Feature::distance).  We model the word as a Nat (< 2^64 in the source,
but no operation below depends on the bound). -/

/-- Population count of a natural number, modelling u64::count_ones.
Structural recursion on a fuel argument (the number itself bounds the
number of halvings) so that the definition reduces in the kernel. -/
def popCountAux : Nat → Nat → Nat
  | 0, _ => 0
  | fuel + 1, n => if n = 0 then 0 else n % 2 + popCountAux fuel (n / 2)

def popCount (n : Nat) : Nat := popCountAux n n

theorem popCountAux_congr :
    ∀ f g n : Nat, n ≤ f → n ≤ g → popCountAux f n = popCountAux g n := by
  intro f
  induction f with
  | zero =>
    intro g n hf hg
    have hn : n = 0 := Nat.le_zero.mp hf
    subst hn
    cases g <;> simp [popCountAux]
  | succ f ih =>
    intro g n hf hg
    cases g with
    | zero =>
      have hn : n = 0 := Nat.le_zero.mp hg
      subst hn
      simp [popCountAux]
    | succ g =>
      by_cases hn : n = 0
      · subst hn; simp [popCountAux]
      · simp only [popCountAux, hn, if_false]
        have hlt : n / 2 < n := Nat.div_lt_self (Nat.pos_of_ne_zero hn) Nat.one_lt_two
        have h1 : n / 2 ≤ f := by omega
        have h2 : n / 2 ≤ g := by omega
        rw [ih g (n / 2) h1 h2]

/-- The recursive unfolding of popCount. -/
theorem popCount_eq (n : Nat) :
    popCount n = if n = 0 then 0 else n % 2 + popCount (n / 2) := by
  by_cases hn : n = 0
  · subst hn; rfl
  · simp only [hn, if_false, popCount]
    cases n with
    | zero => cases hn rfl
    | succ m =>
      simp only [popCountAux, Nat.succ_ne_zero, if_false]
      have h1 : (m + 1) / 2 ≤ m := by omega
      rw [popCountAux_congr m ((m + 1) / 2) ((m + 1) / 2) h1 (Nat.le_refl _)]

/-- Feature::distance: popcount of bitwise xor. -/
def distance (a b : Nat) : Nat := popCount (a ^^^ b)

/-- Framing of FeatureExtractor::features: audio.windows(w).step_by(s).
Yields the window starting at 0 whenever it fits, then recurses s samples
later.  The guards 0 < w and 0 < s mirror the preconditions of the Rust
iterators (windows(0) and step_by(0) panic). -/
def frames (w s : Nat) (l : List Nat) : List (List Nat) :=
  if h : 0 < w ∧ 0 < s ∧ w ≤ l.length then
    l.take w :: frames w s (l.drop s)
  else []
termination_by l.length
decreasing_by
  rcases h with ⟨hw, hs, hwl⟩
  simp only [List.length_drop]
  omega

/-- Rank-to-thermometer-length map of the quantizer:
new_index * (quantizer_bits_per_bin + 1) / quantizer_topk (integer division). -/
def thermoBin (bits topk r : Nat) : Nat := r * (bits + 1) / topk

/-- One quantizer segment: tempcode << (old_index * bits) with
tempcode = (1 << bin) - 1. -/
def quantSeg (bits topk r i : Nat) : Nat :=
  (2 ^ thermoBin bits topk r - 1) <<< (i * bits)

/-- The quantizer of FeatureExtractor::features, fed with the list of
original bin indices in ascending-value order (the result of the
total_cmp sort); enumerate supplies new_index, reduce(|a,b| a|b) is the
left fold of bitwise or with unwrap_or(0) as the empty case. -/
def quantize (bits topk : Nat) (ranked : List Nat) : Nat :=
  (ranked.enum.map fun p => quantSeg bits topk p.1 p.2).foldl (fun a b => a ||| b) 0

/-- drain(sorted_chroma.len()-topk..): keep the last topk indices of the
ascending sort, then quantize.  sortedIdx abstracts the float sort: it is
the permutation of bin indices ordered by ascending chroma value. -/
def quantizeTopK (bits topk : Nat) (sortedIdx : List Nat) : Nat :=
  quantize bits topk (sortedIdx.drop (sortedIdx.length - topk))

/-- The value stored in 5-bit (in general bits-wide) slot s of a
fingerprint: (fp >> (s*bits)) mod 2^bits. -/
def slotVal (bits s x : Nat) : Nat := (x >>> (s * bits)) % 2 ^ bits

/-! ### Search: src/search.rs -/

/-- Search-relevant fields of DatabaseConfiguration. -/
structure Cfg where
  search_beam_count : Nat
  search_window_size : Nat
  search_length_penalty : Nat
  search_score_penalty : Nat
deriving DecidableEq

/-- Default SessionConfiguration search fields (src/config.rs). -/
def defaultCfg : Cfg :=
  { search_beam_count := 1000
    search_window_size := 3
    search_length_penalty := 3
    search_score_penalty := 100 }

def U32 : Nat := 2 ^ 32

/-- u32 wrapping addition. -/
def u32add (a b : Nat) : Nat := (a + b) % U32

/-- struct Fraction { n: u32, d: u32 }. -/
structure Fraction where
  n : Nat
  d : Nat
deriving DecidableEq

/-- impl Ord for Fraction: compares self.n * other.d with other.n * self.d,
both computed as u32 products, i.e. reduced mod 2^32 (Rust release-mode
wrapping; debug mode would panic at the same overflow point). -/
def fracCmp (a b : Fraction) : Ordering :=
  compare (a.n * b.d % U32) (b.n * a.d % U32)

/-- struct Beam { query_start: usize, path: Vec<usize> }. -/
structure Beam where
  query_start : Nat
  path : List Nat
deriving DecidableEq

/-- Beam::key_start: first path entry (paths are never empty in reachable
states; the default is irrelevant there). -/
def keyStart (b : Beam) : Nat := b.path.headD 0

/-- Beam::key_end: last path entry. -/
def keyEnd (b : Beam) : Nat := b.path.getLastD 0

/-- enum Candidate { Existing(Beam), Seed(usize) }. -/
inductive Cand where
  | existing (b : Beam)
  | seed (k : Nat)
deriving DecidableEq

/-- Endpoint a candidate competes at in the recombination table. -/
def candEnd : Cand → Nat
  | Cand.existing b => keyEnd b
  | Cand.seed k => k

/-- Candidate::to_beam(query_start). -/
def candToBeam (head : Nat) : Cand → Beam
  | Cand.existing b => b
  | Cand.seed k => { query_start := head, path := [k] }

/-- Derived Ord for Vec<usize>: lexicographic, shorter prefix first. -/
def listCmp : List Nat → List Nat → Ordering
  | [], [] => Ordering.eq
  | [], _ :: _ => Ordering.lt
  | _ :: _, [] => Ordering.gt
  | a :: as, b :: bs =>
    match compare a b with
    | Ordering.eq => listCmp as bs
    | o => o

/-- Derived Ord for Beam: query_start, then path. -/
def beamCmp (a b : Beam) : Ordering :=
  (compare a.query_start b.query_start).then (listCmp a.path b.path)

/-- Derived Ord for Candidate: Existing < Seed, then componentwise. -/
def candCmp : Cand → Cand → Ordering
  | Cand.existing a, Cand.existing b => beamCmp a b
  | Cand.existing _, Cand.seed _ => Ordering.lt
  | Cand.seed _, Cand.existing _ => Ordering.gt
  | Cand.seed a, Cand.seed b => compare a b

/-- Ord for the heap elements (Fraction, Candidate). -/
def pairCmp (a b : Fraction × Cand) : Ordering :=
  (fracCmp a.1 b.1).then (candCmp a.2 b.2)

/-- Ord for the finalize heap elements (Fraction, &Uuid, Beam); the uuid
is modelled as a Nat. -/
def tripleCmp (a b : Fraction × Nat × Beam) : Ordering :=
  (fracCmp a.1 b.1).then ((compare a.2.1 b.2.1).then (beamCmp a.2.2 b.2.2))

/-- The recombination table: HashMap<usize, (Fraction, Candidate)> as a
function from endpoint to entry. -/
def Tbl : Type := Nat → Option (Fraction × Cand)

def emptyTbl : Tbl := fun _ => none

/-- One entry() competition of Query::update: insert at the candidate
endpoint when vacant, else replace the occupant only when the new score
is strictly smaller under Fraction::cmp. -/
def recombInsert (t : Tbl) (c : Fraction × Cand) : Tbl :=
  fun k =>
    if k = candEnd c.2 then
      match t k with
      | none => some c
      | some old => if fracCmp c.1 old.1 = Ordering.lt then some c else some old
    else t k

/-- First (offset, value) pair attaining the minimum value, as
Iterator::min_by_key (ties resolved to the first element). -/
def argminAux (best : Nat × Nat) (i : Nat) : List Nat → Nat × Nat
  | [] => best
  | v :: rest => argminAux (if v < best.2 then (i, v) else best) (i + 1) rest

def argminFirst : List Nat → Option (Nat × Nat)
  | [] => none
  | v :: rest => some (argminAux (0, v) 1 rest)

/-- The beam-extension body of Query::update: examine
scores[head+1 .. min(head+1+W_s, L)]; when non-empty, push the chosen key
position and accumulate (n += distance, d += 1) in u32 arithmetic;
otherwise leave the beam unchanged. -/
def extendStep (ws : Nat) (scores : List Nat) (sb : Fraction × Beam) : Fraction × Beam :=
  let start := keyEnd sb.2 + 1
  match argminFirst ((scores.drop start).take ws) with
  | some p =>
    ({ n := u32add sb.1.n p.2, d := u32add sb.1.d 1 },
     { query_start := sb.2.query_start, path := sb.2.path ++ [start + p.1] })
  | none => sb

/-- A drained beam after extension, wrapped as Candidate::Existing. -/
def extendCand (ws : Nat) (scores : List Nat) (sb : Fraction × Beam) : Fraction × Cand :=
  ((extendStep ws scores sb).1, Cand.existing (extendStep ws scores sb).2)

/-- The seeding phase: for every key position j a candidate with score
(score_penalty + d[j]) / (length_penalty + 1), in u32 arithmetic. -/
def seedCands (cfg : Cfg) (scores : List Nat) : List (Fraction × Cand) :=
  scores.enum.map fun p =>
    ({ n := u32add cfg.search_score_penalty p.2
       d := u32add cfg.search_length_penalty 1 },
     Cand.seed p.1)

/-- recomb_table.into_values(), read off in ascending endpoint order
(endpoints all lie below the key length). -/
def tableVals (t : Tbl) (len : Nat) : List (Fraction × Cand) :=
  (List.range len).filterMap t

/-- First maximum of a list under the heap order (ties keep the earlier
element), modelling the element BinaryHeap::pop removes. -/
def maxElem : List (Fraction × Cand) → Option (Fraction × Cand)
  | [] => none
  | x :: rest =>
    some (match maxElem rest with
      | none => x
      | some m => if pairCmp x m = Ordering.lt then m else x)

/-- Remove the first maximum (one BinaryHeap::pop). -/
def popMax : List (Fraction × Cand) → List (Fraction × Cand)
  | [] => []
  | x :: rest =>
    match maxElem rest with
    | none => []
    | some m => if pairCmp x m = Ordering.lt then x :: popMax rest else rest

theorem popMax_length (l : List (Fraction × Cand)) (h : l ≠ []) :
    (popMax l).length + 1 = l.length := by
  induction l with
  | nil => cases h rfl
  | cons x rest ih =>
    cases hm : maxElem rest with
    | none =>
      have hrest : rest = [] := by
        cases rest with
        | nil => rfl
        | cons y ys => simp [maxElem] at hm
      subst hrest
      simp [popMax, maxElem]
    | some m =>
      have hne : rest ≠ [] := by
        intro he
        subst he
        simp [maxElem] at hm
      by_cases hlt : pairCmp x m = Ordering.lt
      · simp only [popMax, hm, hlt, if_true, List.length_cons]
        rw [ih hne]
      · simp only [popMax, hm, List.length_cons]
        rw [if_neg hlt]

/-- Iterated popping. -/
def trimN : Nat → List (Fraction × Cand) → List (Fraction × Cand)
  | 0, l => l
  | n + 1, l => trimN n (popMax l)

/-- while heap.len() > search_beam_count { heap.pop(); }: each pop of a
non-empty heap removes exactly one element (popMax_length), so the loop
performs exactly len - k pops. -/
def trim (k : Nat) (l : List (Fraction × Cand)) : List (Fraction × Cand) :=
  trimN (l.length - k) l

/-- The per-key body of Query::update: extend the drained beams, fold
them and then the seeds through the recombination table, trim to
search_beam_count entries, materialize seeds with query_start = head. -/
def updateKey (cfg : Cfg) (head : Nat) (scores : List Nat)
    (beams : List (Fraction × Beam)) : List (Fraction × Beam) :=
  let t1 := (beams.map (extendCand cfg.search_window_size scores)).foldl recombInsert emptyTbl
  let t2 := (seedCands cfg scores).foldl recombInsert t1
  (trim cfg.search_beam_count (tableVals t2 scores.length)).map
    fun p => (p.1, candToBeam head p.2)

/-- One (uuid, features, beams) triple of Query::song_beams. -/
structure Song where
  uuid : Nat
  feats : List Nat
  beams : List (Fraction × Beam)
deriving DecidableEq

/-- Query state: song_beams plus the head counter. -/
structure QState where
  head : Nat
  songs : List Song
deriving DecidableEq

/-- Database::new_query: one empty beam vector per key. -/
def newQuery (db : List (Nat × List Nat)) : QState :=
  { head := 0
    songs := db.map fun p => { uuid := p.1, feats := p.2, beams := [] } }

/-- Query::update: per-song distances and beam-set update, then
head += 1. -/
def queryUpdate (cfg : Cfg) (st : QState) (f : Nat) : QState :=
  { head := st.head + 1
    songs := st.songs.map fun s =>
      { s with beams := updateKey cfg st.head (s.feats.map (distance f)) s.beams } }

/-- A whole query run (extraction output fed in order). -/
def runQuery (cfg : Cfg) (db : List (Nat × List Nat)) (feats : List Nat) : QState :=
  feats.foldl (queryUpdate cfg) (newQuery db)

/-- QueryResult; score is kept as the exact pair (n, d) of which the
f32 score of the source is the function n as f32 / d as f32. -/
structure QueryResult where
  uuid : Nat
  scoreN : Nat
  scoreD : Nat
  key_start : Nat
  key_end : Nat
  query_start : Nat
deriving DecidableEq

def sortInsert (le : α → α → Bool) (x : α) : List α → List α
  | [] => [x]
  | y :: ys => if le x y then x :: y :: ys else y :: sortInsert le x ys

/-- Ascending sort, modelling BinaryHeap::into_sorted_vec. -/
def sortByLe (le : α → α → Bool) : List α → List α
  | [] => []
  | x :: xs => sortInsert le x (sortByLe le xs)

def tripleLe (a b : Fraction × Nat × Beam) : Bool :=
  tripleCmp a b ≠ Ordering.gt

/-- Query::finalize: flatten the surviving beams with their uuids, sort
ascending by (score, uuid, beam), convert to results. -/
def finalize (st : QState) : List QueryResult :=
  (sortByLe tripleLe
      (st.songs.foldr (fun s acc => s.beams.map (fun p => (p.1, s.uuid, p.2)) ++ acc) [])).map
    fun p =>
      { uuid := p.2.1
        scoreN := p.1.n
        scoreD := p.1.d
        key_start := keyStart p.2.2
        key_end := keyEnd p.2.2
        query_start := p.2.2.query_start }

end SessionRS

namespace SessionRS

/-! ### Claim C1: behaviour of a beam whose extension window is empty -/

/-- Claim C1 is refuted by this run: the key has a single fingerprint
(L = 1), so after the first update the only beam ends at key_end 0 with
key_end + 1 >= L and its extension window in the second update is empty.
The claim says such a beam is dropped by that update; instead it survives
the second update unchanged (its query_start 0 identifies it as the beam
seeded in update 1 - a fresh seed of update 2 would carry query_start 1). -/
theorem c1_cex :
    (runQuery ⟨10, 1, 3, 100⟩ [(1, [0])] [0, 1]).songs =
      [⟨1, [0], [(⟨100, 4⟩, ⟨0, [0]⟩)]⟩] ∧
    keyEnd ⟨0, [0]⟩ + 1 ≥ ([0] : List Nat).length :=
  ⟨by decide, by decide⟩

/-- Amended C1: when the extension window d[h+1 .. min(h+1+W_s, L)] of a
live beam is empty (h + 1 >= L), Query::update does not drop the beam: the
extension step returns it unchanged (same path, same score), and it then
re-enters the recombination table at its current key_end, surviving unless
it loses the endpoint competition or the beam-count trim. -/
theorem c1_thm (ws : Nat) (scores : List Nat) (sb : Fraction × Beam)
    (h : scores.length ≤ keyEnd sb.2 + 1) :
    extendStep ws scores sb = sb := by
  have hd : scores.drop (keyEnd sb.2 + 1) = [] := List.drop_eq_nil_of_le h
  simp [extendStep, hd, argminFirst]

theorem c1_witness :
    ([5, 7] : List Nat).length ≤ keyEnd ⟨0, [1]⟩ + 1 ∧
      extendStep 3 [5, 7] (⟨100, 4⟩, ⟨0, [1]⟩) = (⟨100, 4⟩, ⟨0, [1]⟩) :=
  ⟨by decide, c1_thm 3 [5, 7] (⟨100, 4⟩, ⟨0, [1]⟩) (by decide)⟩

/-! ### Claim C3: the Fraction comparison -/

/-- Claim C3 is refuted by this run: with search_length_penalty
2^31 - 1 and search_score_penalty 3, the second update compares the seed
score 4 / 2^31 against the surviving beam score 3 / 2^31 at endpoint 0.
The code computes both cross products as u32: 4 * 2^31 wraps to 0 and
3 * 2^31 stays 2^31, so the comparison says the seed is strictly smaller
and the seed replaces the beam (first conjunct shows the final beam set),
although as mathematical rationals 4 / 2^31 > 3 / 2^31 (third conjunct):
the product does not fit in the 32-bit arithmetic actually used, and the
resulting ordering is not the mathematical ordering. -/
theorem c3_cex :
    (runQuery ⟨10, 1, 2 ^ 31 - 1, 3⟩ [(1, [0])] [0, 1]).songs =
      [⟨1, [0], [(⟨4, 2 ^ 31⟩, ⟨1, [0]⟩)]⟩] ∧
    fracCmp ⟨4, 2 ^ 31⟩ ⟨3, 2 ^ 31⟩ = Ordering.lt ∧
    (3 : ℚ) / 2 ^ 31 < (4 : ℚ) / 2 ^ 31 :=
  ⟨by decide, by decide, by norm_num⟩

/-- Amended C3: the comparison computes both cross products in 32-bit
wrapping arithmetic; whenever both products are below 2^32 (and the
denominators positive) they are exact and the resulting ordering equals
the mathematical ordering of the rationals n1/d1 and n2/d2. -/
theorem c3_thm (a b : Fraction) (hab : a.n * b.d < U32) (hba : b.n * a.d < U32)
    (hda : 0 < a.d) (hdb : 0 < b.d) :
    (fracCmp a b = Ordering.lt ↔ (a.n : ℚ) / a.d < (b.n : ℚ) / b.d) ∧
    (fracCmp a b = Ordering.eq ↔ (a.n : ℚ) / a.d = (b.n : ℚ) / b.d) ∧
    (fracCmp a b = Ordering.gt ↔ (b.n : ℚ) / b.d < (a.n : ℚ) / a.d) := by
  have hda' : (0 : ℚ) < (a.d : ℚ) := by exact_mod_cast hda
  have hdb' : (0 : ℚ) < (b.d : ℚ) := by exact_mod_cast hdb
  have hlt : (a.n : ℚ) / a.d < (b.n : ℚ) / b.d ↔ a.n * b.d < b.n * a.d := by
    rw [div_lt_div_iff₀ hda' hdb']
    exact_mod_cast Iff.rfl
  have heq : (a.n : ℚ) / a.d = (b.n : ℚ) / b.d ↔ a.n * b.d = b.n * a.d := by
    rw [div_eq_div_iff (ne_of_gt hda') (ne_of_gt hdb')]
    exact_mod_cast Iff.rfl
  have hgt : (b.n : ℚ) / b.d < (a.n : ℚ) / a.d ↔ b.n * a.d < a.n * b.d := by
    rw [div_lt_div_iff₀ hdb' hda']
    exact_mod_cast Iff.rfl
  unfold fracCmp
  rw [Nat.mod_eq_of_lt hab, Nat.mod_eq_of_lt hba]
  exact ⟨by rw [Nat.compare_eq_lt, hlt],
         by rw [Nat.compare_eq_eq, heq],
         by rw [Nat.compare_eq_gt, hgt]⟩

theorem c3_witness :
    (Fraction.mk 1 2).n * (Fraction.mk 2 3).d < U32 ∧
    (Fraction.mk 2 3).n * (Fraction.mk 1 2).d < U32 ∧
    0 < (Fraction.mk 1 2).d ∧ 0 < (Fraction.mk 2 3).d ∧
    ((fracCmp ⟨1, 2⟩ ⟨2, 3⟩ = Ordering.lt ↔ (1 : ℚ) / 2 < (2 : ℚ) / 3) ∧
     (fracCmp ⟨1, 2⟩ ⟨2, 3⟩ = Ordering.eq ↔ (1 : ℚ) / 2 = (2 : ℚ) / 3) ∧
     (fracCmp ⟨1, 2⟩ ⟨2, 3⟩ = Ordering.gt ↔ (2 : ℚ) / 3 < (1 : ℚ) / 2)) :=
  ⟨by decide, by decide, by decide, by decide,
   by
     have h := c3_thm ⟨1, 2⟩ ⟨2, 3⟩ (by decide) (by decide) (by decide) (by decide)
     simpa using h⟩

/-! ### Claim C9: finalize with zero updates -/

/-- An empty query is not an error: for every database, finalizing a
fresh query (zero update calls) returns the empty result list. -/
theorem c9_thm (db : List (Nat × List Nat)) : finalize (newQuery db) = [] := by
  unfold finalize newQuery
  have h : ∀ songs : List Song, (∀ s ∈ songs, s.beams = []) →
      (songs.foldr (fun s acc => s.beams.map (fun p => (p.1, s.uuid, p.2)) ++ acc)
        ([] : List (Fraction × Nat × Beam))) = [] := by
    intro songs hs
    induction songs with
    | nil => rfl
    | cons s rest ih =>
      simp only [List.foldr_cons]
      rw [hs s (by simp), ih (fun t ht => hs t (by simp [ht]))]
      rfl
  rw [h _ (by intro s hs; rcases List.mem_map.mp hs with ⟨p, _, hp⟩; rw [← hp])]
  rfl

end SessionRS

namespace SessionRS

/-! ### Claim C7: frame count of FeatureExtractor::features

The feature loop pushes exactly one fingerprint per spectrogram row and
the spectrogram has one row per yielded window, so the fingerprint count
equals the frame count of audio.windows(W).step_by(S). -/

theorem frames_length (w s : Nat) (hw : 0 < w) (hs : 0 < s) (l : List Nat) :
    (frames w s l).length = if w ≤ l.length then (l.length - w) / s + 1 else 0 := by
  suffices hgen : ∀ n : Nat, ∀ l : List Nat, l.length = n →
      (frames w s l).length = if w ≤ l.length then (l.length - w) / s + 1 else 0 from
    hgen l.length l rfl
  intro n
  induction n using Nat.strong_induction_on with
  | _ n ih =>
    intro l hn
    subst hn
    rw [frames]
    by_cases hcond : w ≤ l.length
    · rw [dif_pos ⟨hw, hs, hcond⟩, if_pos hcond]
      simp only [List.length_cons]
      have hlen : (l.drop s).length = l.length - s := List.length_drop s l
      have hrec := ih (l.drop s).length (by omega) (l.drop s) rfl
      rw [hrec, hlen]
      by_cases h2 : w ≤ l.length - s
      · rw [if_pos h2]
        have hsub : l.length - s - w = l.length - w - s := by omega
        have hdiv : (l.length - w) / s = (l.length - w - s) / s + 1 := by
          rw [Nat.div_eq (l.length - w) s, if_pos ⟨hs, by omega⟩]
        rw [hsub, ← hdiv]
      · rw [if_neg h2]
        have hdiv : (l.length - w) / s = 0 := Nat.div_eq_of_lt (by omega)
        rw [hdiv]
    · rw [if_neg hcond, dif_neg (by intro hc; exact hcond hc.2.2)]
      rfl

/-- Fingerprint count: for input length N, window w > 0, stride s > 0,
the framing yields (N - w)/s + 1 windows when N >= w and none otherwise;
with the default w = 4096, s = 2048: length 4095 gives 0 frames, 4096
gives 1, 6143 gives 1, 6144 gives 2. -/
theorem c7_thm (w s : Nat) (l : List Nat) (hw : 0 < w) (hs : 0 < s) :
    ((frames w s l).length = if w ≤ l.length then (l.length - w) / s + 1 else 0) ∧
    (frames 4096 2048 (List.replicate 4095 0)).length = 0 ∧
    (frames 4096 2048 (List.replicate 4096 0)).length = 1 ∧
    (frames 4096 2048 (List.replicate 6143 0)).length = 1 ∧
    (frames 4096 2048 (List.replicate 6144 0)).length = 2 := by
  refine ⟨frames_length w s hw hs l, ?_, ?_, ?_, ?_⟩ <;>
    rw [frames_length 4096 2048 (by norm_num) (by norm_num), List.length_replicate] <;>
    norm_num

theorem c7_witness :
    0 < 2 ∧ 0 < 1 ∧
    (((frames 2 1 [9, 9, 9]).length = if 2 ≤ ([9, 9, 9] : List Nat).length
        then (([9, 9, 9] : List Nat).length - 2) / 1 + 1 else 0) ∧
     (frames 4096 2048 (List.replicate 4095 0)).length = 0 ∧
     (frames 4096 2048 (List.replicate 4096 0)).length = 1 ∧
     (frames 4096 2048 (List.replicate 6143 0)).length = 1 ∧
     (frames 4096 2048 (List.replicate 6144 0)).length = 2) :=
  ⟨by decide, by decide, c7_thm 2 1 [9, 9, 9] (by decide) (by decide)⟩

end SessionRS

namespace SessionRS

/-! ### Claim C4: at most one beam per endpoint -/

/-- Every entry of a recombination table built by folding insertions sits
at the endpoint of its own candidate. -/
theorem tblEnd_foldl (l : List (Fraction × Cand)) (t : Tbl)
    (ht : ∀ e v, t e = some v → candEnd v.2 = e) :
    ∀ e v, (l.foldl recombInsert t) e = some v → candEnd v.2 = e := by
  induction l generalizing t with
  | nil => exact ht
  | cons c rest ih =>
    simp only [List.foldl_cons]
    apply ih
    intro e v h
    unfold recombInsert at h
    by_cases he : e = candEnd c.2
    · rw [if_pos he] at h
      cases hte : t e with
      | none =>
        simp only [hte] at h
        cases h
        exact he.symm
      | some old =>
        simp only [hte] at h
        by_cases hc : fracCmp c.1 old.1 = Ordering.lt
        · rw [if_pos hc] at h
          cases h
          exact he.symm
        · rw [if_neg hc] at h
          cases h
          exact ht e _ hte
    · rw [if_neg he] at h
      exact ht e v h

/-- Reading a table off along a list of keys yields entries whose
endpoints form a sublist of those keys. -/
theorem filterMap_end_sublist (g : Tbl) (rl : List Nat)
    (hg : ∀ e v, g e = some v → candEnd v.2 = e) :
    ((rl.filterMap g).map (fun p => candEnd p.2)).Sublist rl := by
  induction rl with
  | nil => simp
  | cons e rest ih =>
    cases hge : g e with
    | none =>
      rw [List.filterMap_cons_none hge]
      exact ih.cons e
    | some v =>
      rw [List.filterMap_cons_some hge]
      simp only [List.map_cons]
      rw [hg e v hge]
      exact ih.cons₂ e

theorem popMax_sublist (l : List (Fraction × Cand)) : (popMax l).Sublist l := by
  induction l with
  | nil => exact List.Sublist.refl []
  | cons x rest ih =>
    cases hm : maxElem rest with
    | none =>
      simp only [popMax, hm]
      exact List.nil_sublist _
    | some m =>
      by_cases hlt : pairCmp x m = Ordering.lt
      · simp only [popMax, hm, hlt, if_true]
        exact ih.cons₂ x
      · simp only [popMax, hm]
        rw [if_neg hlt]
        exact List.sublist_cons_self x rest

theorem trimN_sublist (n : Nat) (l : List (Fraction × Cand)) : (trimN n l).Sublist l := by
  induction n generalizing l with
  | zero => exact List.Sublist.refl l
  | succ n ih => exact (ih (popMax l)).trans (popMax_sublist l)

theorem trim_sublist (k : Nat) (l : List (Fraction × Cand)) : (trim k l).Sublist l :=
  trimN_sublist (l.length - k) l

theorem keyEnd_candToBeam (head : Nat) (c : Cand) :
    keyEnd (candToBeam head c) = candEnd c := by
  cases c <;> rfl

/-- After every per-key body of Query::update, no two surviving beams of
that key share key_end: the recombination table holds at most one
candidate per endpoint, endpoints survive trimming and materialization
unchanged, and the endpoint list is a sublist of range L, hence has no
duplicates. -/
theorem c4_thm (cfg : Cfg) (head : Nat) (scores : List Nat)
    (beams : List (Fraction × Beam)) :
    ((updateKey cfg head scores beams).map (fun sb => keyEnd sb.2)).Nodup := by
  unfold updateKey
  simp only [List.map_map]
  have hfun : ((fun sb : Fraction × Beam => keyEnd sb.2) ∘
      (fun p : Fraction × Cand => (p.1, candToBeam head p.2))) =
      fun p : Fraction × Cand => candEnd p.2 :=
    funext fun p => keyEnd_candToBeam head p.2
  rw [hfun]
  have htbl : ∀ e v,
      ((seedCands cfg scores).foldl recombInsert
        ((beams.map (extendCand cfg.search_window_size scores)).foldl recombInsert emptyTbl))
          e = some v → candEnd v.2 = e :=
    tblEnd_foldl _ _ (tblEnd_foldl _ _ (fun e v h => by cases h))
  have hvals := filterMap_end_sublist _ (List.range scores.length) htbl
  have htrim := (trim_sublist cfg.search_beam_count
    (tableVals ((seedCands cfg scores).foldl recombInsert
      ((beams.map (extendCand cfg.search_window_size scores)).foldl recombInsert emptyTbl))
      scores.length)).map (fun p : Fraction × Cand => candEnd p.2)
  exact htrim.nodup (hvals.nodup (List.nodup_range scores.length))

/-! ### Claim C6: paths are strictly increasing -/

/-- A table entry produced by folding insertions is either one of the
inserted candidates or was already in the initial table. -/
theorem tblMem_foldl (l : List (Fraction × Cand)) (t : Tbl) :
    ∀ e v, (l.foldl recombInsert t) e = some v → v ∈ l ∨ t e = some v := by
  induction l generalizing t with
  | nil => intro e v h; exact Or.inr h
  | cons c rest ih =>
    intro e v h
    rcases ih (recombInsert t c) e v h with hv | hv
    · exact Or.inl (List.mem_cons_of_mem c hv)
    · unfold recombInsert at hv
      by_cases he : e = candEnd c.2
      · rw [if_pos he] at hv
        cases hte : t e with
        | none =>
          simp only [hte] at hv
          cases hv
          exact Or.inl (List.mem_cons_self c rest)
        | some old =>
          simp only [hte] at hv
          by_cases hc : fracCmp c.1 old.1 = Ordering.lt
          · rw [if_pos hc] at hv
            cases hv
            exact Or.inl (List.mem_cons_self c rest)
          · rw [if_neg hc] at hv
            injection hv with hov
            subst hov
            exact Or.inr rfl
      · rw [if_neg he] at hv
        exact Or.inr hv

/-- Extension preserves strictly increasing paths: the appended position
keyEnd + 1 + offset exceeds the previous last position. -/
theorem extendStep_pathInc (ws : Nat) (scores : List Nat) (sb : Fraction × Beam)
    (h : List.Chain' (· < ·) sb.2.path) :
    List.Chain' (· < ·) (extendStep ws scores sb).2.path := by
  unfold extendStep
  cases hm : argminFirst ((scores.drop (keyEnd sb.2 + 1)).take ws) with
  | none => simpa [hm] using h
  | some p =>
    simp only [hm]
    rw [List.chain'_append]
    refine ⟨h, List.chain'_singleton _, ?_⟩
    intro x hx y hy
    simp only [List.head?_cons, Option.mem_def, Option.some.injEq] at hy
    have hxe : keyEnd sb.2 = x := by
      unfold keyEnd
      rw [List.getLastD_eq_getLast?, hx]
      rfl
    omega

/-- Per-key preservation: if all input beams have strictly increasing
paths, so do all beams produced by the per-key body of Query::update
(survivors are extended input beams, unchanged input beams, or fresh
single-position seeds). -/
theorem updateKey_pathInc (cfg : Cfg) (head : Nat) (scores : List Nat)
    (beams : List (Fraction × Beam))
    (h : ∀ sb ∈ beams, List.Chain' (· < ·) sb.2.path) :
    ∀ sb ∈ updateKey cfg head scores beams, List.Chain' (· < ·) sb.2.path := by
  intro sb hsb
  unfold updateKey at hsb
  rcases List.mem_map.mp hsb with ⟨p, hp, hpe⟩
  have hpvals : p ∈ tableVals
      ((seedCands cfg scores).foldl recombInsert
        ((beams.map (extendCand cfg.search_window_size scores)).foldl recombInsert emptyTbl))
      scores.length :=
    (trim_sublist _ _).mem hp
  rcases List.mem_filterMap.mp hpvals with ⟨e, _, hge⟩
  have hsrc := tblMem_foldl _ _ e p hge
  rcases hsrc with hseed | hrest
  · rcases List.mem_map.mp hseed with ⟨q, _, hq⟩
    rw [← hpe, ← hq]
    exact List.chain'_singleton _
  · rcases tblMem_foldl _ _ e p hrest with hext | hempty
    · rcases List.mem_map.mp hext with ⟨sb0, hsb0, hsb0e⟩
      rw [← hpe, ← hsb0e]
      exact extendStep_pathInc _ _ _ (h sb0 hsb0)
    · cases hempty
  
/-- Every beam held by a query at any point of any run (and hence in the
final state consumed by finalize) has a strictly increasing path. -/
theorem c6_thm (cfg : Cfg) (db : List (Nat × List Nat)) (feats : List Nat)
    (sng : Song) (hs : sng ∈ (runQuery cfg db feats).songs)
    (sb : Fraction × Beam) (hb : sb ∈ sng.beams) :
    List.Chain' (· < ·) sb.2.path := by
  have main : ∀ fs : List Nat, ∀ st : QState,
      (∀ s0 ∈ st.songs, ∀ p ∈ s0.beams, List.Chain' (· < ·) p.2.path) →
      ∀ s0 ∈ (fs.foldl (queryUpdate cfg) st).songs, ∀ p ∈ s0.beams,
        List.Chain' (· < ·) p.2.path := by
    intro fs
    induction fs with
    | nil => intro st hst; exact hst
    | cons f rest ih =>
      intro st hst
      simp only [List.foldl_cons]
      apply ih
      intro s0 hs0 p hp
      unfold queryUpdate at hs0
      rcases List.mem_map.mp hs0 with ⟨s1, hs1, hs1e⟩
      rw [← hs1e] at hp
      exact updateKey_pathInc cfg st.head _ s1.beams (hst s1 hs1) p hp
  have hbase : ∀ s0 ∈ (newQuery db).songs, ∀ p ∈ s0.beams,
      List.Chain' (· < ·) p.2.path := by
    intro s0 hs0 p hp
    unfold newQuery at hs0
    rcases List.mem_map.mp hs0 with ⟨q, _, hqe⟩
    rw [← hqe] at hp
    cases hp
  exact main feats (newQuery db) hbase sng hs sb hb

theorem c6_witness :
    (⟨1, [0], [(⟨100, 4⟩, ⟨0, [0]⟩)]⟩ : Song) ∈
        (runQuery ⟨10, 1, 3, 100⟩ [(1, [0])] [0, 1]).songs ∧
    ((⟨100, 4⟩, ⟨0, [0]⟩) : Fraction × Beam) ∈
        (⟨1, [0], [(⟨100, 4⟩, ⟨0, [0]⟩)]⟩ : Song).beams ∧
    List.Chain' (· < ·) (Beam.mk 0 [0]).path :=
  ⟨by decide, by decide,
   c6_thm ⟨10, 1, 3, 100⟩ [(1, [0])] [0, 1] ⟨1, [0], [(⟨100, 4⟩, ⟨0, [0]⟩)]⟩
     (by decide) (⟨100, 4⟩, ⟨0, [0]⟩) (by decide)⟩

/-! ### Claim C2: determinism

Per-key work is independent across keys and the final sort breaks all
ties (distinct uuids, and within one key distinct endpoints), so the only
order-sensitivity of a run is the order in which a step drains the
previous beam vector into the recombination table.  That order is the
HashMap/BinaryHeap iteration order in the source, which is not a function
of the inputs; runQueryOrds makes it an explicit parameter. -/

/-- Score bounds under which the u32 cross products cannot wrap. -/
def smallF (f : Fraction) : Prop := f.n < 2 ^ 16 ∧ 0 < f.d ∧ f.d < 2 ^ 16

instance (f : Fraction) : Decidable (smallF f) := by
  unfold smallF
  infer_instance

theorem cross_fit (a b : Fraction) (ha : smallF a) (hb : smallF b) :
    a.n * b.d < U32 := by
  have h := mul_lt_mul'' ha.1 hb.2.2 (Nat.zero_le _) (Nat.zero_le _)
  calc a.n * b.d < 2 ^ 16 * 2 ^ 16 := h
  _ = U32 := by unfold U32; norm_num

/-- Below the bound the wrapping comparison is the exact one. -/
theorem fracCmp_small (a b : Fraction) (ha : smallF a) (hb : smallF b) :
    fracCmp a b = compare (a.n * b.d) (b.n * a.d) := by
  unfold fracCmp
  rw [Nat.mod_eq_of_lt (cross_fit a b ha hb), Nat.mod_eq_of_lt (cross_fit b a hb ha)]

theorem then_eq_lt {o p : Ordering} (h : o.then p = Ordering.lt) :
    o = Ordering.lt ∨ (o = Ordering.eq ∧ p = Ordering.lt) := by
  cases o with
  | lt => exact Or.inl rfl
  | eq => exact Or.inr ⟨rfl, h⟩
  | gt => cases h

theorem fracCmp_swap (a b : Fraction) : fracCmp a b = (fracCmp b a).swap := by
  unfold fracCmp
  rcases Nat.lt_trichotomy (a.n * b.d % U32) (b.n * a.d % U32) with h | h | h
  · rw [Nat.compare_eq_lt.mpr h, Nat.compare_eq_gt.mpr h]
    rfl
  · rw [Nat.compare_eq_eq.mpr h, Nat.compare_eq_eq.mpr h.symm]
    rfl
  · rw [Nat.compare_eq_gt.mpr h, Nat.compare_eq_lt.mpr h]
    rfl

theorem scoreLe_refl (f : Fraction) : fracCmp f f ≠ Ordering.gt := by
  unfold fracCmp
  rw [Nat.compare_eq_eq.mpr rfl]
  simp

theorem crossLe_trans (a b c : Fraction) (hdb : 0 < b.d)
    (h1 : a.n * b.d ≤ b.n * a.d) (h2 : b.n * c.d ≤ c.n * b.d) :
    a.n * c.d ≤ c.n * a.d := by
  have k1 : a.n * b.d * c.d ≤ b.n * a.d * c.d := Nat.mul_le_mul_right _ h1
  have k2 : b.n * c.d * a.d ≤ c.n * b.d * a.d := Nat.mul_le_mul_right _ h2
  have k3 : b.d * (a.n * c.d) ≤ b.d * (c.n * a.d) := by
    calc b.d * (a.n * c.d) = a.n * b.d * c.d := by ring
    _ ≤ b.n * a.d * c.d := k1
    _ = b.n * c.d * a.d := by ring
    _ ≤ c.n * b.d * a.d := k2
    _ = b.d * (c.n * a.d) := by ring
  exact Nat.le_of_mul_le_mul_left k3 hdb

/-- The non-strict score order (fracCmp not gt) is transitive in the
non-wrapping regime. -/
theorem scoreLe_trans (x y z : Fraction) (hx : smallF x) (hy : smallF y)
    (hz : smallF z) (h1 : fracCmp x y ≠ Ordering.gt)
    (h2 : fracCmp y z ≠ Ordering.gt) : fracCmp x z ≠ Ordering.gt := by
  rw [fracCmp_small x y hx hy, Ne, Nat.compare_eq_gt] at h1
  rw [fracCmp_small y z hy hz, Ne, Nat.compare_eq_gt] at h2
  rw [fracCmp_small x z hx hz, Ne, Nat.compare_eq_gt]
  intro hlt
  have hle1 : x.n * y.d ≤ y.n * x.d := Nat.not_lt.mp h1
  have hle2 : y.n * z.d ≤ z.n * y.d := Nat.not_lt.mp h2
  have := crossLe_trans x y z hy.2.1 hle1 hle2
  omega

theorem pairCmp_lt_scoreLe (a b : Fraction × Cand)
    (h : pairCmp a b = Ordering.lt) : fracCmp a.1 b.1 ≠ Ordering.gt := by
  unfold pairCmp at h
  rcases then_eq_lt h with h1 | ⟨h1, _⟩ <;> simp [h1]

theorem pairCmp_not_lt_scoreLe (a b : Fraction × Cand)
    (h : pairCmp a b ≠ Ordering.lt) : fracCmp b.1 a.1 ≠ Ordering.gt := by
  unfold pairCmp at h
  cases hf : fracCmp a.1 b.1 with
  | lt => exact absurd (by rw [hf]; rfl) h
  | eq =>
    rw [fracCmp_swap b.1 a.1, hf]
    simp [Ordering.swap]
  | gt =>
    rw [fracCmp_swap b.1 a.1, hf]
    simp [Ordering.swap]

theorem maxElem_mem (l : List (Fraction × Cand)) :
    ∀ m, maxElem l = some m → m ∈ l := by
  induction l with
  | nil => intro m h; cases h
  | cons x rest ih =>
    intro m h
    cases hm : maxElem rest with
    | none =>
      simp only [maxElem, hm] at h
      injection h with hx
      rw [← hx]
      exact List.mem_cons_self x rest
    | some m0 =>
      simp only [maxElem, hm] at h
      injection h with hx
      by_cases hlt : pairCmp x m0 = Ordering.lt
      · rw [if_pos hlt] at hx
        rw [← hx]
        exact List.mem_cons_of_mem x (ih m0 hm)
      · rw [if_neg hlt] at hx
        rw [← hx]
        exact List.mem_cons_self x rest

/-- The scanned maximum has a score at least every list member's score
(in the non-wrapping regime). -/
theorem maxElem_ge (l : List (Fraction × Cand)) (hsmall : ∀ c ∈ l, smallF c.1) :
    ∀ m, maxElem l = some m → ∀ y ∈ l, fracCmp y.1 m.1 ≠ Ordering.gt := by
  induction l with
  | nil => intro m hm; cases hm
  | cons x rest ih =>
    intro m hm y hy
    cases hm0 : maxElem rest with
    | none =>
      have hrest : rest = [] := by
        cases rest with
        | nil => rfl
        | cons a as => simp [maxElem] at hm0
      subst hrest
      simp only [maxElem] at hm
      injection hm with hx
      rcases List.mem_cons.mp hy with hyx | hy2
      · subst hyx
        rw [← hx]
        exact scoreLe_refl y.1
      · cases hy2
    | some m0 =>
      simp only [maxElem, hm0] at hm
      injection hm with hx
      have hm0mem : m0 ∈ rest := maxElem_mem rest m0 hm0
      have hm0small : smallF m0.1 := hsmall m0 (List.mem_cons_of_mem x hm0mem)
      have hxsmall : smallF x.1 := hsmall x (List.mem_cons_self x rest)
      have ihr := ih (fun c hc => hsmall c (List.mem_cons_of_mem x hc)) m0 hm0
      by_cases hlt : pairCmp x m0 = Ordering.lt
      · rw [if_pos hlt] at hx
        rcases List.mem_cons.mp hy with hyx | hy2
        · subst hyx
          rw [← hx]
          exact pairCmp_lt_scoreLe y m0 hlt
        · rw [← hx]
          exact ihr y hy2
      · rw [if_neg hlt] at hx
        rcases List.mem_cons.mp hy with hyx | hy2
        · subst hyx
          rw [← hx]
          exact scoreLe_refl y.1
        · rw [← hx]
          exact scoreLe_trans y.1 m0.1 x.1
            (hsmall y (List.mem_cons_of_mem x hy2)) hm0small hxsmall
            (ihr y hy2) (pairCmp_not_lt_scoreLe x m0 hlt)

/-- An element of the heap that does not survive a pop is a maximum: its
score is at least every member's score. -/
theorem popMax_out_ge :
    ∀ l : List (Fraction × Cand), (∀ c ∈ l, smallF c.1) →
    ∀ x, x ∈ l → x ∉ popMax l →
    ∀ y ∈ l, fracCmp y.1 x.1 ≠ Ordering.gt := by
  intro l
  induction l with
  | nil => intro _ x hx; cases hx
  | cons a rest ih =>
    intro hsmall x hxl hxout
    cases hm : maxElem rest with
    | none =>
      have hrest : rest = [] := by
        cases rest with
        | nil => rfl
        | cons b bs => simp [maxElem] at hm
      subst hrest
      rcases List.mem_cons.mp hxl with hax | h2
      · subst hax
        intro y hy
        rcases List.mem_cons.mp hy with hya | h3
        · subst hya
          exact scoreLe_refl _
        · cases h3
      · cases h2
    | some m0 =>
      have hm0mem := maxElem_mem rest m0 hm
      have hm0small : smallF m0.1 := hsmall m0 (List.mem_cons_of_mem a hm0mem)
      have hasmall : smallF a.1 := hsmall a (List.mem_cons_self a rest)
      have hrestge := maxElem_ge rest
        (fun c hc => hsmall c (List.mem_cons_of_mem a hc)) m0 hm
      by_cases hlt : pairCmp a m0 = Ordering.lt
      · have hpm : popMax (a :: rest) = a :: popMax rest := by
          simp only [popMax, hm, hlt, if_true]
        rw [hpm] at hxout
        have hxa : x ≠ a := fun he => hxout (he ▸ List.mem_cons_self a _)
        have hxrest : x ∈ rest := (List.mem_cons.mp hxl).resolve_left hxa
        have hxoutr : x ∉ popMax rest := fun hc => hxout (List.mem_cons_of_mem a hc)
        have ihx := ih (fun c hc => hsmall c (List.mem_cons_of_mem a hc)) x hxrest hxoutr
        intro y hy
        rcases List.mem_cons.mp hy with hya | h3
        · subst hya
          exact scoreLe_trans y.1 m0.1 x.1 hasmall hm0small (hsmall x hxl)
            (pairCmp_lt_scoreLe y m0 hlt) (ihx m0 hm0mem)
        · exact ihx y h3
      · have hpm : popMax (a :: rest) = rest := by
          simp only [popMax, hm]
          rw [if_neg hlt]
        rw [hpm] at hxout
        have hxa : x = a := (List.mem_cons.mp hxl).resolve_right hxout
        subst hxa
        intro y hy
        rcases List.mem_cons.mp hy with hya | h3
        · subst hya
          exact scoreLe_refl _
        · exact scoreLe_trans y.1 m0.1 x.1
            (hsmall y (List.mem_cons_of_mem x h3)) hm0small (hsmall x hxl)
            (hrestge y h3) (pairCmp_not_lt_scoreLe x m0 hlt)

/-- Iterated popping only removes elements whose score is at least every
survivor's score. -/
theorem trimN_out_ge (n : Nat) :
    ∀ l : List (Fraction × Cand), (∀ c ∈ l, smallF c.1) →
    ∀ x ∈ l, x ∉ trimN n l →
    ∀ y ∈ trimN n l, fracCmp y.1 x.1 ≠ Ordering.gt := by
  induction n with
  | zero =>
    intro l _ x hx hout
    exact absurd hx hout
  | succ n ih =>
    intro l hsmall x hx hout
    simp only [trimN] at hout ⊢
    by_cases hxp : x ∈ popMax l
    · exact ih (popMax l) (fun c hc => hsmall c ((popMax_sublist l).mem hc)) x hxp hout
    · intro y hy
      have hyl : y ∈ l := (popMax_sublist l).mem ((trimN_sublist n (popMax l)).mem hy)
      exact popMax_out_ge l hsmall x hx hxp y hyl

theorem trimN_length (n : Nat) :
    ∀ l : List (Fraction × Cand), n ≤ l.length →
    (trimN n l).length = l.length - n := by
  induction n with
  | zero =>
    intro l _
    simp [trimN]
  | succ n ih =>
    intro l h
    have hne : l ≠ [] := by
      intro he
      subst he
      simp at h
    have hp := popMax_length l hne
    simp only [trimN]
    rw [ih (popMax l) (by omega)]
    omega

/-- The recombination table contents of one per-key update, in endpoint
order (the list the trim loop starts from). -/
def recombVals (cfg : Cfg) (scores : List Nat) (beams : List (Fraction × Beam)) :
    List (Fraction × Cand) :=
  tableVals ((seedCands cfg scores).foldl recombInsert
    ((beams.map (extendCand cfg.search_window_size scores)).foldl recombInsert emptyTbl))
    scores.length

theorem updateKey_eq (cfg : Cfg) (head : Nat) (scores : List Nat)
    (beams : List (Fraction × Beam)) :
    updateKey cfg head scores beams =
      (trim cfg.search_beam_count (recombVals cfg scores beams)).map
        (fun p => (p.1, candToBeam head p.2)) := rfl

/-- Claim C5 is refuted on its second half by this update.  With
search_length_penalty 2^31 - 1, search_score_penalty 3, beam count 1 and
an empty incoming beam vector, the two seeds score 3 / 2^31 (position 0)
and 4 / 2^31 (position 1).  The trim loop compares them with the wrapped
u32 cross products (3 * 2^31 stays 2^31 while 4 * 2^31 wraps to 0), pops
the seed scoring 3 / 2^31 as the heap maximum, and retains the seed
scoring 4 / 2^31 - although 3 / 2^31 is the strictly smaller score
(third conjunct, cross-multiplied with equal denominators).  So the
entries retained after trimming are not those with the smallest scores. -/
theorem c5_cex :
    updateKey ⟨1, 1, 2 ^ 31 - 1, 3⟩ 0 [0, 1] [] = [(⟨4, 2 ^ 31⟩, ⟨0, [1]⟩)] ∧
    recombVals ⟨1, 1, 2 ^ 31 - 1, 3⟩ [0, 1] [] =
      [(⟨3, 2 ^ 31⟩, Cand.seed 0), (⟨4, 2 ^ 31⟩, Cand.seed 1)] ∧
    3 * 2 ^ 31 < 4 * 2 ^ 31 :=
  ⟨by decide, by decide, by decide⟩

/-- Amended C5: after every per-key body of Query::update the surviving
beam vector has at most search_beam_count entries, unconditionally; and
whenever no u32 cross product wraps (every recombination score below
2^16 in numerator and denominator) every retained entry scores no worse
than every trimmed-away entry under the code's comparison.  With wrapped
products the comparison inverts and a strictly smaller score can be
trimmed (c5_cex). -/
theorem c5_thm (cfg : Cfg) (head : Nat) (scores : List Nat)
    (beams : List (Fraction × Beam)) :
    (updateKey cfg head scores beams).length ≤ cfg.search_beam_count ∧
    ((∀ c ∈ recombVals cfg scores beams, smallF c.1) →
      ∀ x ∈ recombVals cfg scores beams,
      x ∉ trim cfg.search_beam_count (recombVals cfg scores beams) →
      ∀ y ∈ trim cfg.search_beam_count (recombVals cfg scores beams),
        fracCmp y.1 x.1 ≠ Ordering.gt) := by
  constructor
  · rw [updateKey_eq, List.length_map]
    unfold trim
    by_cases hk : cfg.search_beam_count < (recombVals cfg scores beams).length
    · rw [trimN_length _ _ (by omega)]
      omega
    · have h0 : (recombVals cfg scores beams).length - cfg.search_beam_count = 0 := by
        omega
      rw [h0]
      exact Nat.not_lt.mp hk
  · intro hsmall x hx hout y hy
    exact trimN_out_ge _ _ hsmall x hx hout y hy

theorem c5_witness :
    (updateKey ⟨1, 1, 3, 100⟩ 0 [0, 1] []).length ≤
        (Cfg.mk 1 1 3 100).search_beam_count ∧
    (∀ c ∈ recombVals ⟨1, 1, 3, 100⟩ [0, 1] [], smallF c.1) ∧
    (∀ x ∈ recombVals ⟨1, 1, 3, 100⟩ [0, 1] [],
      x ∉ trim (Cfg.mk 1 1 3 100).search_beam_count
        (recombVals ⟨1, 1, 3, 100⟩ [0, 1] []) →
      ∀ y ∈ trim (Cfg.mk 1 1 3 100).search_beam_count
        (recombVals ⟨1, 1, 3, 100⟩ [0, 1] []),
        fracCmp y.1 x.1 ≠ Ordering.gt) :=
  ⟨(c5_thm ⟨1, 1, 3, 100⟩ 0 [0, 1] []).1, by decide,
   (c5_thm ⟨1, 1, 3, 100⟩ 0 [0, 1] []).2 (by decide)⟩

/-! ### Claim C8: thermometer slot discipline of the quantizer -/

theorem anyMapGen {α β : Type} (f : α → β) (p : β → Bool) (l : List α) :
    (l.map f).any p = l.any (fun a => p (f a)) := by
  induction l with
  | nil => rfl
  | cons x rest ih => simp [List.any_cons, ih]

theorem testBit_orFoldl (xs : List Nat) (acc n : Nat) :
    (xs.foldl (fun a b => a ||| b) acc).testBit n =
      (acc.testBit n || xs.any (fun x => x.testBit n)) := by
  induction xs generalizing acc with
  | nil => simp
  | cons x rest ih =>
    simp only [List.foldl_cons, List.any_cons]
    rw [ih, Nat.testBit_lor]
    cases acc.testBit n <;> cases x.testBit n <;> simp

theorem testBit_quantSeg (bits topk r i n : Nat) :
    (quantSeg bits topk r i).testBit n =
      (decide (i * bits ≤ n) && decide (n - i * bits < thermoBin bits topk r)) := by
  unfold quantSeg
  rw [Nat.testBit_shiftLeft, Nat.testBit_two_pow_sub_one]

theorem testBit_quantize (bits topk : Nat) (ranked : List Nat) (n : Nat) :
    (quantize bits topk ranked).testBit n =
      ranked.enum.any fun p =>
        decide (p.2 * bits ≤ n) && decide (n - p.2 * bits < thermoBin bits topk p.1) := by
  unfold quantize
  rw [testBit_orFoldl, Nat.zero_testBit, Bool.false_or, anyMapGen]
  congr 1
  funext p
  exact testBit_quantSeg bits topk p.1 p.2 n

theorem testBit_slotVal (bits s x j : Nat) :
    (slotVal bits s x).testBit j = (decide (j < bits) && x.testBit (s * bits + j)) := by
  unfold slotVal
  rw [Nat.testBit_mod_two_pow, Nat.testBit_shiftRight]

theorem thermoBin_le (r : Nat) (hr : r < 8) : thermoBin 5 8 r ≤ 5 := by
  unfold thermoBin
  calc r * (5 + 1) / 8 ≤ 42 / 8 := Nat.div_le_div_right (by omega)
  _ = 5 := by norm_num

/-- A segment rooted at a slot other than s contributes no bit to slot s. -/
theorem seg_bit_false (r i s j : Nat) (hr : r < 8) (hi : i ≠ s) (hj : j < 5) :
    (decide (i * 5 ≤ s * 5 + j) &&
      decide (s * 5 + j - i * 5 < thermoBin 5 8 r)) = false := by
  have hbin : thermoBin 5 8 r ≤ 5 := thermoBin_le r hr
  have hd : ¬(i * 5 ≤ s * 5 + j) ∨ ¬(s * 5 + j - i * 5 < thermoBin 5 8 r) := by
    omega
  rcases hd with hd | hd <;> simp [hd]

/-- Core of the slot discipline: for any at-most-8 distinct ranked
indices, each slot of the quantized word is either empty or a thermometer
code 2^bin - 1 for its rank. -/
theorem c8_core (ranked : List Nat) (hlen : ranked.length ≤ 8) (hnd : ranked.Nodup)
    (s : Nat) :
    slotVal 5 s (quantize 5 8 ranked) ∈ ([0, 1, 3, 7, 15, 31] : List Nat) := by
  by_cases hs : s ∈ ranked
  · rcases List.mem_iff_getElem.mp hs with ⟨r0, hr0, hget⟩
    have hbin : thermoBin 5 8 r0 ≤ 5 := thermoBin_le r0 (lt_of_lt_of_le hr0 hlen)
    have hval : slotVal 5 s (quantize 5 8 ranked) = 2 ^ thermoBin 5 8 r0 - 1 := by
      apply Nat.eq_of_testBit_eq
      intro j
      rw [testBit_slotVal, Nat.testBit_two_pow_sub_one]
      by_cases hj : j < 5
      · rw [decide_eq_true hj, Bool.true_and, testBit_quantize]
        by_cases hjb : j < thermoBin 5 8 r0
        · rw [decide_eq_true hjb, List.any_eq_true]
          have hr0e : r0 < ranked.enum.length := by
            rw [List.enum_length]
            exact hr0
          have hgete : ranked.enum[r0] = (r0, s) := by
            rw [List.getElem_enum ranked r0 hr0e, hget]
          refine ⟨(r0, s), hgete ▸ List.getElem_mem hr0e, ?_⟩
          have h1 : s * 5 ≤ s * 5 + j := Nat.le_add_right _ _
          have h2 : s * 5 + j - s * 5 < thermoBin 5 8 r0 := by omega
          simp [h1, h2, hjb]
        · rw [decide_eq_false hjb]
          rw [List.any_eq_false]
          rintro ⟨r, i⟩ hp
          obtain ⟨hplen, hpv⟩ := List.mem_enum hp
          by_cases hips : i = s
          · have hrs : ranked[r] = s := by rw [← hpv, hips]
            have hrr0 : r = r0 := hnd.getElem_inj_iff.mp (by rw [hrs, hget])
            have hfalse : (decide (i * 5 ≤ s * 5 + j) &&
                decide (s * 5 + j - i * 5 < thermoBin 5 8 r)) = false := by
              have h2 : ¬(s * 5 + j - i * 5 < thermoBin 5 8 r) := by
                rw [hrr0]
                omega
              simp [h2]
            simp [hfalse]
          · simp [seg_bit_false r i s j (lt_of_lt_of_le hplen hlen) hips hj]
      · rw [decide_eq_false hj, Bool.false_and]
        symm
        rw [decide_eq_false]
        omega
    rw [hval]
    have h5 : thermoBin 5 8 r0 = 0 ∨ thermoBin 5 8 r0 = 1 ∨ thermoBin 5 8 r0 = 2 ∨
        thermoBin 5 8 r0 = 3 ∨ thermoBin 5 8 r0 = 4 ∨ thermoBin 5 8 r0 = 5 := by
      omega
    rcases h5 with h5 | h5 | h5 | h5 | h5 | h5 <;> rw [h5] <;> simp
  · have hval : slotVal 5 s (quantize 5 8 ranked) = 0 := by
      apply Nat.eq_of_testBit_eq
      intro j
      rw [testBit_slotVal, Nat.zero_testBit]
      by_cases hj : j < 5
      · rw [decide_eq_true hj, Bool.true_and, testBit_quantize, List.any_eq_false]
        rintro ⟨r, i⟩ hp
        obtain ⟨hplen, hpv⟩ := List.mem_enum hp
        have hips : i ≠ s := by
          intro he
          apply hs
          rw [← he, hpv]
          exact List.getElem_mem hplen
        simp [seg_bit_false r i s j (lt_of_lt_of_le hplen hlen) hips hj]
      · simp [hj]
    rw [hval]
    simp

/-- With the default configuration, every fingerprint the quantizer can
produce (from any ranking permutation of the 12 chroma bins) carries in
every 5-bit slot one of the thermometer codes 0, 1, 3, 7, 15, 31 and
nothing else. -/
theorem c8_thm (sIdx : List Nat) (hperm : sIdx.Perm (List.range 12)) (s : Nat) :
    slotVal 5 s (quantizeTopK 5 8 sIdx) ∈ ([0, 1, 3, 7, 15, 31] : List Nat) := by
  unfold quantizeTopK
  have hlen : sIdx.length = 12 := by
    rw [hperm.length_eq, List.length_range]
  have hnd : sIdx.Nodup := hperm.nodup_iff.mpr (List.nodup_range 12)
  have hdnd : (sIdx.drop (sIdx.length - 8)).Nodup := (List.drop_sublist _ _).nodup hnd
  have hdlen : (sIdx.drop (sIdx.length - 8)).length ≤ 8 := by
    rw [List.length_drop, hlen]
  exact c8_core _ hdlen hdnd s

theorem c8_witness :
    (List.range 12).Perm (List.range 12) ∧
    slotVal 5 3 (quantizeTopK 5 8 (List.range 12)) ∈ ([0, 1, 3, 7, 15, 31] : List Nat) :=
  ⟨List.Perm.refl _, c8_thm (List.range 12) (List.Perm.refl _) 3⟩

/-! ### Claim C10: every default-config fingerprint has exactly 18 set
bits, so Hamming distances are at most 36 -/

theorem popCount_unfold (n : Nat) : popCount n = n % 2 + popCount (n / 2) := by
  rw [popCount_eq]
  by_cases hn : n = 0
  · subst hn
    rfl
  · rw [if_neg hn]

theorem or_div_two (a b : Nat) : (a ||| b) / 2 = a / 2 ||| b / 2 := by
  apply Nat.eq_of_testBit_eq
  intro i
  rw [Nat.testBit_div_two, Nat.testBit_lor, Nat.testBit_lor, Nat.testBit_div_two,
    Nat.testBit_div_two]

theorem xor_div_two (a b : Nat) : (a ^^^ b) / 2 = a / 2 ^^^ b / 2 := by
  apply Nat.eq_of_testBit_eq
  intro i
  rw [Nat.testBit_div_two, Nat.testBit_xor, Nat.testBit_xor, Nat.testBit_div_two,
    Nat.testBit_div_two]

theorem and_div_two (a b : Nat) : (a &&& b) / 2 = a / 2 &&& b / 2 := by
  apply Nat.eq_of_testBit_eq
  intro i
  rw [Nat.testBit_div_two, Nat.testBit_land, Nat.testBit_land, Nat.testBit_div_two,
    Nat.testBit_div_two]

theorem or_mod_two (a b : Nat) (h : a &&& b = 0) : (a ||| b) % 2 = a % 2 + b % 2 := by
  have h0 : (a.testBit 0 && b.testBit 0) = false := by
    have hb := congrArg (fun n => n.testBit 0) h
    simpa [Nat.testBit_land, Nat.zero_testBit] using hb
  have h1 : (a ||| b).testBit 0 = (a.testBit 0 || b.testBit 0) := Nat.testBit_lor a b 0
  rw [Nat.testBit_zero, Nat.testBit_zero] at h0
  rw [Nat.testBit_zero, Nat.testBit_zero, Nat.testBit_zero] at h1
  rcases Nat.mod_two_eq_zero_or_one a with ha | ha <;>
    rcases Nat.mod_two_eq_zero_or_one b with hb | hb <;>
    rcases Nat.mod_two_eq_zero_or_one (a ||| b) with hab | hab <;>
    simp [ha, hb, hab] at h0 h1 ⊢

theorem xor_mod_two_le (a b : Nat) : (a ^^^ b) % 2 ≤ a % 2 + b % 2 := by
  have h1 : (a ^^^ b).testBit 0 = (a.testBit 0 ^^ b.testBit 0) := Nat.testBit_xor a b 0
  rw [Nat.testBit_zero, Nat.testBit_zero, Nat.testBit_zero] at h1
  rcases Nat.mod_two_eq_zero_or_one a with ha | ha <;>
    rcases Nat.mod_two_eq_zero_or_one b with hb | hb <;>
    rcases Nat.mod_two_eq_zero_or_one (a ^^^ b) with hab | hab <;>
    simp [ha, hb, hab] at h1 ⊢

theorem popCount_or_disjoint :
    ∀ a b : Nat, a &&& b = 0 → popCount (a ||| b) = popCount a + popCount b := by
  intro a
  induction a using Nat.strong_induction_on with
  | _ a ih =>
    intro b hab
    by_cases ha : a = 0
    · subst ha
      rw [Nat.zero_or]
      have h0 : popCount 0 = 0 := rfl
      omega
    · have hdisj2 : a / 2 &&& b / 2 = 0 := by
        rw [← and_div_two, hab]
      have hda : a / 2 < a := Nat.div_lt_self (Nat.pos_of_ne_zero ha) Nat.one_lt_two
      rw [popCount_unfold (a ||| b), or_mod_two a b hab, or_div_two,
        ih (a / 2) hda (b / 2) hdisj2, popCount_unfold a, popCount_unfold b]
      omega

theorem popCount_xor_le : ∀ a b : Nat, popCount (a ^^^ b) ≤ popCount a + popCount b := by
  intro a
  induction a using Nat.strong_induction_on with
  | _ a ih =>
    intro b
    by_cases ha : a = 0
    · subst ha
      rw [Nat.zero_xor]
      omega
    · have hda : a / 2 < a := Nat.div_lt_self (Nat.pos_of_ne_zero ha) Nat.one_lt_two
      rw [popCount_unfold (a ^^^ b), xor_div_two, popCount_unfold a, popCount_unfold b]
      have h1 := xor_mod_two_le a b
      have h2 := ih (a / 2) hda (b / 2)
      omega

theorem popCount_two_mul (x : Nat) : popCount (2 * x) = popCount x := by
  rw [popCount_unfold (2 * x)]
  have h1 : (2 * x) % 2 = 0 := by omega
  have h2 : (2 * x) / 2 = x := by omega
  rw [h1, h2]
  omega

theorem popCount_shiftLeft (x : Nat) : ∀ k, popCount (x <<< k) = popCount x := by
  intro k
  induction k with
  | zero => rfl
  | succ k ih => rw [Nat.shiftLeft_succ, popCount_two_mul, ih]

theorem popCount_two_pow_sub_one : ∀ b : Nat, popCount (2 ^ b - 1) = b := by
  intro b
  induction b with
  | zero => rfl
  | succ b ih =>
    have hpos : 1 ≤ 2 ^ b := Nat.one_le_two_pow
    have h : 2 ^ (b + 1) - 1 = 2 * (2 ^ b - 1) + 1 := by
      have := Nat.pow_succ 2 b
      omega
    rw [h, popCount_unfold]
    have h1 : (2 * (2 ^ b - 1) + 1) % 2 = 1 := by omega
    have h2 : (2 * (2 ^ b - 1) + 1) / 2 = 2 ^ b - 1 := by omega
    rw [h1, h2, ih]
    omega

theorem popCount_quantSeg (bits topk r i : Nat) :
    popCount (quantSeg bits topk r i) = thermoBin bits topk r := by
  unfold quantSeg
  rw [popCount_shiftLeft, popCount_two_pow_sub_one]

theorem and_or_right (a b c : Nat) : (a ||| b) &&& c = (a &&& c) ||| (b &&& c) := by
  apply Nat.eq_of_testBit_eq
  intro i
  simp only [Nat.testBit_land, Nat.testBit_lor]
  cases a.testBit i <;> cases b.testBit i <;> cases c.testBit i <;> rfl

theorem quantSeg_disjoint (r1 i1 r2 i2 : Nat) (hr1 : r1 < 8) (hr2 : r2 < 8)
    (hne : i1 ≠ i2) : quantSeg 5 8 r1 i1 &&& quantSeg 5 8 r2 i2 = 0 := by
  apply Nat.eq_of_testBit_eq
  intro n
  rw [Nat.testBit_land, testBit_quantSeg, testBit_quantSeg, Nat.zero_testBit]
  have hb1 : thermoBin 5 8 r1 ≤ 5 := thermoBin_le r1 hr1
  have hb2 : thermoBin 5 8 r2 ≤ 5 := thermoBin_le r2 hr2
  by_cases h1 : i1 * 5 ≤ n ∧ n - i1 * 5 < thermoBin 5 8 r1
  · by_cases h2 : i2 * 5 ≤ n ∧ n - i2 * 5 < thermoBin 5 8 r2
    · exact absurd (by omega : i1 = i2) hne
    · rcases not_and_or.mp h2 with h | h <;> simp [h]
  · rcases not_and_or.mp h1 with h | h <;> simp [h]

theorem popCount_orFoldl (xs : List Nat) :
    ∀ acc, (∀ x ∈ xs, acc &&& x = 0) → List.Pairwise (fun x y => x &&& y = 0) xs →
    popCount (xs.foldl (fun a b => a ||| b) acc) =
      popCount acc + (xs.map popCount).sum := by
  induction xs with
  | nil =>
    intro acc _ _
    simp
  | cons x rest ih =>
    intro acc hacc hpw
    simp only [List.foldl_cons, List.map_cons, List.sum_cons]
    have hax : acc &&& x = 0 := hacc x (List.mem_cons_self x rest)
    have hacc2 : ∀ y ∈ rest, (acc ||| x) &&& y = 0 := by
      intro y hy
      rw [and_or_right, hacc y (List.mem_cons_of_mem x hy),
        (List.pairwise_cons.mp hpw).1 y hy]
      rfl
    rw [ih (acc ||| x) hacc2 (List.pairwise_cons.mp hpw).2,
      popCount_or_disjoint acc x hax]
    omega

theorem popCount_quantize (ranked : List Nat) (hlen : ranked.length = 8)
    (hnd : ranked.Nodup) : popCount (quantize 5 8 ranked) = 18 := by
  unfold quantize
  have hnd2 : List.Pairwise (fun p q : Nat × Nat => p.2 ≠ q.2) ranked.enum := by
    have hpnd := hnd
    rw [← List.enum_map_snd ranked] at hpnd
    exact List.pairwise_map.mp hpnd
  have hpw : List.Pairwise (fun x y => x &&& y = 0)
      (ranked.enum.map fun p => quantSeg 5 8 p.1 p.2) := by
    rw [List.pairwise_map]
    refine List.Pairwise.imp_of_mem ?_ hnd2
    rintro ⟨r1, i1⟩ ⟨r2, i2⟩ hp hq hne
    obtain ⟨hp1, _⟩ := List.mem_enum hp
    obtain ⟨hq1, _⟩ := List.mem_enum hq
    exact quantSeg_disjoint r1 i1 r2 i2 (by omega) (by omega) hne
  have hacc : ∀ x ∈ ranked.enum.map fun p => quantSeg 5 8 p.1 p.2, 0 &&& x = 0 := by
    intro x _
    apply Nat.eq_of_testBit_eq
    intro i
    simp [Nat.testBit_land, Nat.zero_testBit]
  rw [popCount_orFoldl _ 0 hacc hpw]
  have hmap : ((ranked.enum.map fun p => quantSeg 5 8 p.1 p.2).map popCount) =
      (ranked.enum.map Prod.fst).map fun r => thermoBin 5 8 r := by
    rw [List.map_map, List.map_map]
    congr 1
    funext p
    exact popCount_quantSeg 5 8 p.1 p.2
  rw [hmap, List.enum_map_fst, hlen]
  rfl

/-- Under the default configuration every quantizer output has exactly
18 set bits (the thermometer lengths for ranks 0..7 are 0,0,1,2,3,3,4,5),
so the Hamming distance between any two extracted fingerprints is at
most 36. -/
theorem c10_thm (s1 s2 : List Nat) (h1 : s1.Perm (List.range 12))
    (h2 : s2.Perm (List.range 12)) :
    popCount (quantizeTopK 5 8 s1) = 18 ∧
    ((List.range 8).map fun r => thermoBin 5 8 r) = [0, 0, 1, 2, 3, 3, 4, 5] ∧
    distance (quantizeTopK 5 8 s1) (quantizeTopK 5 8 s2) ≤ 36 := by
  have key : ∀ s : List Nat, s.Perm (List.range 12) →
      popCount (quantizeTopK 5 8 s) = 18 := by
    intro s hp
    unfold quantizeTopK
    have hlen : s.length = 12 := by
      rw [hp.length_eq, List.length_range]
    have hnd : s.Nodup := hp.nodup_iff.mpr (List.nodup_range 12)
    apply popCount_quantize
    · rw [List.length_drop, hlen]
    · exact (List.drop_sublist _ _).nodup hnd
  refine ⟨key s1 h1, by decide, ?_⟩
  unfold distance
  calc popCount (quantizeTopK 5 8 s1 ^^^ quantizeTopK 5 8 s2) ≤
      popCount (quantizeTopK 5 8 s1) + popCount (quantizeTopK 5 8 s2) :=
        popCount_xor_le _ _
  _ = 36 := by rw [key s1 h1, key s2 h2]

theorem c10_witness :
    (List.range 12).Perm (List.range 12) ∧
    (List.range 12).reverse.Perm (List.range 12) ∧
    (popCount (quantizeTopK 5 8 (List.range 12)) = 18 ∧
     ((List.range 8).map fun r => thermoBin 5 8 r) = [0, 0, 1, 2, 3, 3, 4, 5] ∧
     distance (quantizeTopK 5 8 (List.range 12))
       (quantizeTopK 5 8 (List.range 12).reverse) ≤ 36) :=
  ⟨List.Perm.refl _, by decide,
   c10_thm (List.range 12) (List.range 12).reverse (List.Perm.refl _) (by decide)⟩

/-! ### Claim C2, run level: determinism under drain-order choice -/

/-- The condition under which one update step is drain-order
independent: every extended candidate of the step keeps its score below
the wrapping bound, and no two distinct extended candidates with
cross-multiplicatively equal scores compete for the same endpoint. -/
def noTies (cfg : Cfg) (st : QState) (f : Nat) : Prop :=
  ∀ sng ∈ st.songs,
    (∀ c ∈ sng.beams.map (extendCand cfg.search_window_size (sng.feats.map (distance f))),
      smallF c.1) ∧
    (∀ c ∈ sng.beams.map (extendCand cfg.search_window_size (sng.feats.map (distance f))),
      ∀ d ∈ sng.beams.map (extendCand cfg.search_window_size (sng.feats.map (distance f))),
      candEnd c.2 = candEnd d.2 → c = d ∨ fracCmp c.1 d.1 ≠ Ordering.eq)

instance (cfg : Cfg) (st : QState) (f : Nat) : Decidable (noTies cfg st f) := by
  unfold noTies
  infer_instance

/-- noTies at every step of a run over the given query fingerprints
(states taken along the canonical run). -/
def runOK (cfg : Cfg) : QState → List Nat → Prop
  | _, [] => True
  | st, f :: rest => noTies cfg st f ∧ runOK cfg (queryUpdate cfg st f) rest

instance runOKDec (cfg : Cfg) :
    (feats : List Nat) → (st : QState) → Decidable (runOK cfg st feats)
  | [], _ => isTrue trivial
  | f :: rest, st =>
    haveI := runOKDec cfg rest (queryUpdate cfg st f)
    inferInstanceAs (Decidable (noTies cfg st f ∧ runOK cfg (queryUpdate cfg st f) rest))

end SessionRS
